import Mathlib

/-!
Verification of the Cartesian Merkle Tree engine (cmt-core / cmt-concurrent).

The Rust sources are embedded shallowly: byte sequences become `List Nat`,
the `i128` priority becomes `Int` (with the minimum representable value
`IntMin = -(2 ^ 127)` made explicit), `Option<Box<TreeNode>>` becomes the
`Tree` inductive whose `leaf` constructor is `None`, and the pluggable
SHA-256 primitive (out of scope per the design) is a parameter
`H : Bytes → Bytes`, with the key-to-priority derivation a parameter
`prio : Bytes → Int`.  Fallible operations (the `unwrap` / `expect` calls)
return `Option`, with `none` modelling a panic.
-/

namespace CMT

set_option maxRecDepth 8000

/-- Byte sequences (keys, values, hashes).  Rust `Vec<u8>` / `[u8; 32]`. -/
abbrev Bytes := List Nat

/-- The minimum representable `i128`, the value `remove` forces a target
node's priority to (`i128::MIN`). -/
def IntMin : Int := -(2 ^ 127)

/-- Rust's lexicographic `<` on byte sequences (`Vec<u8>` ordering): a
proper prefix is smaller, otherwise the first differing byte decides. -/
def bytesLt : Bytes → Bytes → Bool
  | [], [] => false
  | [], _ :: _ => true
  | _ :: _, [] => false
  | a :: as, b :: bs => if a < b then true else if b < a then false else bytesLt as bs

/-- Embedding of `calculate_merkle_hash` (src/cmt-core/src/utils.rs lines
5-22): concatenate the key with the two child hashes in ascending byte
order, then apply the hash primitive `H`. -/
def calculate_merkle_hash (H : Bytes → Bytes) (key lh rh : Bytes) : Bytes :=
  if bytesLt lh rh then H (key ++ (lh ++ rh)) else H (key ++ (rh ++ lh))

/-- Embedding of `Option<Box<TreeNode>>`: `leaf` is `None`, `node` carries
key, priority, value, stored commitment hash and the two children. -/
inductive Tree where
  | leaf : Tree
  | node (key : Bytes) (priority : Int) (value : Bytes) (hash : Bytes)
      (left : Tree) (right : Tree) : Tree
deriving DecidableEq, Repr

/-- The `n.hash.clone()).unwrap_or_default()` idiom: a missing child
contributes the empty byte sequence. -/
def hashOf : Tree → Bytes
  | .leaf => []
  | .node _ _ _ h _ _ => h

/-- The `map_or(i128::MIN, |n| n.priority)` idiom used by `heapify`. -/
def prioOf : Tree → Int
  | .leaf => IntMin
  | .node _ p _ _ _ _ => p

/-- Number of nodes of a tree. -/
def size : Tree → Nat
  | .leaf => 0
  | .node _ _ _ _ l r => 1 + size l + size r

/-- Embedding of `split` (src/cmt-core/src/lib.rs lines 148-168, identical
in cmt-concurrent lines 153-170).  The Rust function receives the two
output slots `left`/`right` as `&mut Option<Box<TreeNode>>` accumulators
(initialised to `None` by the caller) and at each visited node overwrites
one of them with `Some(node.clone())`, then recurses into the right or
left child when that child exists. -/
def splitAcc (t : Tree) (key : Bytes) (acc : Tree × Tree) : Tree × Tree :=
  match t with
  | .leaf => acc
  | .node k _ _ _ l r =>
    if bytesLt k key then
      let acc2 : Tree × Tree := (t, acc.2)
      match r with
      | .leaf => acc2
      | .node _ _ _ _ _ _ => splitAcc r key acc2
    else
      let acc2 : Tree × Tree := (acc.1, t)
      match l with
      | .leaf => acc2
      | .node _ _ _ _ _ _ => splitAcc l key acc2

/-- Embedding of `insert_recursive` (src/cmt-core/src/lib.rs lines 67-146;
cmt-concurrent lines 64-151 is the same code with the two child-hash reads
done via `rayon::join`): create a leaf on an empty subtree; if the new
priority beats the current root's, split the subtree by the new key and
make the new key the local root; otherwise recurse by key comparison (or
overwrite the value on an equal key) and recompute the hash from the
current children before returning. -/
def insert_recursive (H : Bytes → Bytes) (t : Tree) (key value : Bytes)
    (priority : Int) : Tree :=
  match t with
  | .leaf => .node key priority value (calculate_merkle_hash H key [] []) .leaf .leaf
  | .node k p v h l r =>
    if priority > p then
      let s := splitAcc (Tree.node k p v h l r) key (Tree.leaf, Tree.leaf)
      Tree.node key priority value
        (calculate_merkle_hash H key (hashOf s.1) (hashOf s.2)) s.1 s.2
    else if bytesLt key k then
      let l2 := insert_recursive H l key value priority
      Tree.node k p v (calculate_merkle_hash H k (hashOf l2) (hashOf r)) l2 r
    else if bytesLt k key then
      let r2 := insert_recursive H r key value priority
      Tree.node k p v (calculate_merkle_hash H k (hashOf l) (hashOf r2)) l r2
    else
      Tree.node k p value (calculate_merkle_hash H k (hashOf l) (hashOf r)) l r

/-- Embedding of `insert`: derive the priority from the key and call
`insert_recursive` on the root. -/
def insert (H : Bytes → Bytes) (prio : Bytes → Int) (t : Tree)
    (key value : Bytes) : Tree :=
  insert_recursive H t key value (prio key)

/-- Fold a list of (key, value) pairs into a fresh tree by repeated
`insert`, modelling a sequence of insert calls on a new tree. -/
def buildList (H : Bytes → Bytes) (prio : Bytes → Int)
    (l : List (Bytes × Bytes)) : Tree :=
  l.foldl (fun t kv => insert H prio t kv.1 kv.2) Tree.leaf

/-- Embedding of `heapify` (src/cmt-core/src/lib.rs lines 207-228): a node
with no children is discarded; otherwise rotate toward the child with the
larger priority (`rotate_right` when the left child's priority is
strictly larger, `rotate_left` otherwise) and recurse on the demoted node,
which the rotation reattached as the right (resp. left) child of the new
local root.  The rotation bodies (utils.rs lines 24-66) are inlined so
that the reattachment is structural; the `expect` branches of the
rotations, reachable only when the required child is missing, are modelled
precisely by `heapifyEF` below and here return `leaf`.  Note the source
recomputes the new local root's hash inside the rotation, before the
recursive `heapify` call replaces that child, and never afterwards. -/
def heapify (H : Bytes → Bytes) : Tree → Tree
  | .leaf => .leaf
  | .node _ _ _ _ .leaf .leaf => .leaf
  | .node k p v _ (.node lk lp lv _ ll lr) .leaf =>
    if lp > IntMin then
      let y := Tree.node k p v (calculate_merkle_hash H k (hashOf lr) []) lr .leaf
      Tree.node lk lp lv (calculate_merkle_hash H lk (hashOf ll) (hashOf y)) ll
        (heapify H y)
    else
      .leaf
  | .node k p v _ .leaf (.node rk rp rv _ rl rr) =>
    if IntMin > rp then
      .leaf
    else
      let x := Tree.node k p v (calculate_merkle_hash H k [] (hashOf rl)) .leaf rl
      Tree.node rk rp rv (calculate_merkle_hash H rk (hashOf x) (hashOf rr))
        (heapify H x) rr
  | .node k p v _ (.node lk lp lv lh ll lr) (.node rk rp rv rh rl rr) =>
    if lp > rp then
      let y := Tree.node k p v
        (calculate_merkle_hash H k (hashOf lr) (hashOf (Tree.node rk rp rv rh rl rr)))
        lr (Tree.node rk rp rv rh rl rr)
      Tree.node lk lp lv (calculate_merkle_hash H lk (hashOf ll) (hashOf y)) ll
        (heapify H y)
    else
      let x := Tree.node k p v
        (calculate_merkle_hash H k (hashOf (Tree.node lk lp lv lh ll lr)) (hashOf rl))
        (Tree.node lk lp lv lh ll lr) rl
      Tree.node rk rp rv (calculate_merkle_hash H rk (hashOf x) (hashOf rr))
        (heapify H x) rr
termination_by t => size t
decreasing_by
  all_goals simp [size]
  all_goals omega

/-- Embedding of `remove_recursive` (src/cmt-core/src/lib.rs lines
176-205): descend by key comparison, recomputing the hash on the way back
up; on the matching key, force the priority to `i128::MIN` and return the
result of `heapify` directly. -/
def remove_recursive (H : Bytes → Bytes) : Tree → Bytes → Tree
  | .leaf, _ => .leaf
  | .node k p v h l r, key =>
    if bytesLt key k then
      let l2 := remove_recursive H l key
      Tree.node k p v (calculate_merkle_hash H k (hashOf l2) (hashOf r)) l2 r
    else if bytesLt k key then
      let r2 := remove_recursive H r key
      Tree.node k p v (calculate_merkle_hash H k (hashOf l) (hashOf r2)) l r2
    else
      heapify H (Tree.node k IntMin v h l r)

/-- Embedding of `remove`: `remove_recursive` on the root. -/
def remove (H : Bytes → Bytes) (t : Tree) (key : Bytes) : Tree :=
  remove_recursive H t key

/-- Embedding of `contains_key` (src/cmt-core/src/lib.rs lines 41-56). -/
def contains_key : Tree → Bytes → Bool
  | .leaf, _ => false
  | .node k _ _ _ l r, key =>
    if k = key then true
    else if bytesLt key k then contains_key l key
    else contains_key r key

/-- The tree's root commitment: the root node's hash, or the empty byte
sequence for the empty tree. -/
def root_hash (t : Tree) : Bytes := hashOf t

/-- Embedding of the `Proof` value object (src/cmt-concurrent/src/lib.rs
lines 309-314): the root-to-target list of (ancestor key, ancestor hash)
pairs, the target position's two child hashes, the existence flag and the
optional witness key. -/
structure Proof where
  pfx : List (Bytes × Bytes)
  suffix : Bytes × Bytes
  existence : Bool
  nonexistenceKey : Option Bytes
deriving DecidableEq, Repr

/-- Descent loop of `generate_proof` (src/cmt-concurrent/src/lib.rs lines
230-287; the generic cmt-core version at lines 230-289 is identical): at
a node with a different key, append (key, hash) to the accumulated path
and descend by comparison; at a matching key return an existence proof
whose suffix holds that node's child hashes; on reaching an absent child
return a non-existence proof whose witness is the last visited node's key
and whose suffix entries are both the empty placeholder. -/
def generate_proof_go (t : Tree) (key : Bytes) (acc : List (Bytes × Bytes)) : Proof :=
  match t with
  | .leaf =>
    Proof.mk acc ([], []) false ((acc.getLast?).map Prod.fst)
  | .node k _ _ h l r =>
    if k = key then
      Proof.mk acc (hashOf l, hashOf r) true none
    else if bytesLt key k then
      generate_proof_go l key (acc ++ [(k, h)])
    else
      generate_proof_go r key (acc ++ [(k, h)])

/-- Embedding of `generate_proof`: run the descent from the root with an
empty path accumulator. -/
def generate_proof (t : Tree) (key : Bytes) : Proof :=
  generate_proof_go t key []

/-- Embedding of `verify_proof` (src/cmt-concurrent/src/lib.rs lines
288-306).  The accumulator starts from the key (existence) or from
`nonexistence_key.unwrap()` (non-existence) hashed with the two suffix
entries, then the prefix list is folded in its stored order (root first),
each step hashing the entry's key with the accumulator and the entry's
hash.  The `unwrap` of an absent witness key is a panic, modelled as
`none`; a completed run returns `some` of the boolean comparison with the
trusted root hash. -/
def verify_proof (H : Bytes → Bytes) (proof : Proof) (key : Bytes)
    (rootHash : Bytes) : Option Bool :=
  match (if proof.existence then some key else proof.nonexistenceKey) with
  | none => none
  | some k0 =>
    let acc0 := calculate_merkle_hash H k0 proof.suffix.1 proof.suffix.2
    some (decide
      (proof.pfx.foldl (fun acc km => calculate_merkle_hash H km.1 acc km.2) acc0
        = rootHash))

/-- Embedding of `rotate_left` (src/cmt-core/src/utils.rs lines 24-44) as
a fallible operation: `none` is the `expect` panic on a missing right
child.  Otherwise the right child's left subtree is reattached as the
input's right child, the input's hash is recomputed, the input becomes the
left child of its old right child, and that node's hash is recomputed. -/
def rotate_leftT (H : Bytes → Bytes) : Tree → Option Tree
  | .node k p v _ l (.node rk rp rv _ rl rr) =>
    let x := Tree.node k p v (calculate_merkle_hash H k (hashOf l) (hashOf rl)) l rl
    some (Tree.node rk rp rv (calculate_merkle_hash H rk (hashOf x) (hashOf rr)) x rr)
  | _ => none

/-- Embedding of `rotate_right` (src/cmt-core/src/utils.rs lines 46-66) as
a fallible operation: `none` is the `expect` panic on a missing left
child. -/
def rotate_rightT (H : Bytes → Bytes) : Tree → Option Tree
  | .node k p v _ (.node lk lp lv _ ll lr) r =>
    let y := Tree.node k p v (calculate_merkle_hash H k (hashOf lr) (hashOf r)) lr r
    some (Tree.node lk lp lv (calculate_merkle_hash H lk (hashOf ll) (hashOf y)) ll y)
  | _ => none

/-- Right child of a node, `none` on a missing child: models the
`new_node.right.take().unwrap()` read inside `heapify`. -/
def rightOf : Tree → Option Tree
  | .leaf => none
  | .node _ _ _ _ _ r =>
    match r with
    | .leaf => none
    | t => some t

/-- Left child of a node, `none` on a missing child: models the
`new_node.left.take().unwrap()` read inside `heapify`. -/
def leftOf : Tree → Option Tree
  | .leaf => none
  | .node _ _ _ _ l _ =>
    match l with
    | .leaf => none
    | t => some t

/-- Replace a node's right child, keeping the stored hash (the source's
`new_node.right = ...` assignment, after which no hash is recomputed). -/
def setRight (t : Tree) (r2 : Tree) : Tree :=
  match t with
  | .leaf => .leaf
  | .node k p v h l _ => .node k p v h l r2

/-- Replace a node's left child, keeping the stored hash. -/
def setLeft (t : Tree) (l2 : Tree) : Tree :=
  match t with
  | .leaf => .leaf
  | .node k p v h _ r => .node k p v h l2 r

/-- Fueled, panic-precise embedding of `heapify`: `none` is either a
panic (a rotation's `expect` on a missing child, or the `unwrap` of the
rotated node's reattached child) or fuel exhaustion; the fuel counts one
unit per rotation, matching the source's one-level-per-rotation descent
of the minimised node toward a leaf. -/
def heapifyEF (H : Bytes → Bytes) : Nat → Tree → Option Tree
  | 0, _ => none
  | _ + 1, .leaf => some .leaf
  | _ + 1, .node _ _ _ _ .leaf .leaf => some .leaf
  | fuel + 1, .node k p v h l r =>
    if prioOf l > prioOf r then
      (rotate_rightT H (Tree.node k p v h l r)).bind fun nn =>
        (rightOf nn).bind fun y =>
          (heapifyEF H fuel y).map fun y2 => setRight nn y2
    else
      (rotate_leftT H (Tree.node k p v h l r)).bind fun nn =>
        (leftOf nn).bind fun x =>
          (heapifyEF H fuel x).map fun x2 => setLeft nn x2

/-- Decidable check of the commitment hash invariant: at every node the
stored hash equals `calculate_merkle_hash` of the key and the children's
hashes (empty placeholder for a missing child). -/
def hashInvB (H : Bytes → Bytes) : Tree → Bool
  | .leaf => true
  | .node k _ _ h l r =>
    (h = calculate_merkle_hash H k (hashOf l) (hashOf r) : Bool)
      && hashInvB H l && hashInvB H r

/-- Decidable check of the max-heap invariant: every node's priority is at
least each child's priority. -/
def heapInvB : Tree → Bool
  | .leaf => true
  | .node _ p _ _ l r =>
    (prioOf l ≤ p : Bool) && (prioOf r ≤ p : Bool) && heapInvB l && heapInvB r

/-- Every key of the tree satisfies the given predicate. -/
def allKeysB (f : Bytes → Bool) : Tree → Bool
  | .leaf => true
  | .node k _ _ _ l r => f k && allKeysB f l && allKeysB f r

/-- Decidable check of the binary-search-tree invariant: all keys of the
left subtree are below the node's key and all keys of the right subtree
above it, recursively. -/
def bstInvB : Tree → Bool
  | .leaf => true
  | .node k _ _ _ l r =>
    allKeysB (fun a => bytesLt a k) l && allKeysB (fun a => bytesLt k a) r
      && bstInvB l && bstInvB r

/-- Structural key membership: the key occurs at some node of the tree. -/
def keyInB : Tree → Bytes → Bool
  | .leaf, _ => false
  | .node k _ _ _ l r, key => (k = key : Bool) || keyInB l key || keyInB r key

/-- Every node of the tree has a priority strictly above `IntMin`, as is
the case for every node `remove` has not minimised. -/
def allPrioGtMinB : Tree → Bool
  | .leaf => true
  | .node _ p _ _ l r => (IntMin < p : Bool) && allPrioGtMinB l && allPrioGtMinB r

/-- Erase the stored values of a tree, keeping keys, priorities, hashes
and shape: two trees with equal erasures agree on everything the root
commitment can depend on. -/
def strip : Tree → Tree
  | .leaf => .leaf
  | .node k p _ h l r => .node k p [] h (strip l) (strip r)

/-- A concrete injective stand-in for the hash primitive, used to
instantiate the pluggable `H` on concrete inputs. -/
def consHash : Bytes → Bytes := fun b => 1 :: b

/-- A concrete stand-in for the key-to-priority derivation: the first byte
of the key. -/
def prioHead : Bytes → Int := fun k => Int.ofNat (k.headD 0)

/-- A concrete priority derivation placing the middle key [2] above the
outer keys [1] and [3]. -/
def prioMid : Bytes → Int :=
  fun k => if k = [2] then 5 else if k = [1] then 2 else 1

/-- The lexicographic byte order is irreflexive. -/
theorem bytesLt_irrefl (a : Bytes) : bytesLt a a = false := by
  induction a with
  | nil => rfl
  | cons x xs ih => simp [bytesLt, ih]

/-- The lexicographic byte order is asymmetric. -/
theorem bytesLt_asymm (a b : Bytes) (h : bytesLt a b = true) : bytesLt b a = false := by
  induction a generalizing b with
  | nil =>
    cases b with
    | nil => simp [bytesLt] at h
    | cons y ys => rfl
  | cons x xs ih =>
    cases b with
    | nil => simp [bytesLt] at h
    | cons y ys =>
      by_cases hxy : x < y
      · simp [bytesLt, Nat.lt_asymm hxy, hxy]
      · by_cases hyx : y < x
        · simp [bytesLt, hxy, hyx] at h
        · simp [bytesLt, hxy, hyx] at h ⊢
          exact ih ys h

/-- Two byte sequences neither of which is lexicographically below the
other are equal. -/
theorem bytesLt_total (a b : Bytes) (hab : bytesLt a b = false)
    (hba : bytesLt b a = false) : a = b := by
  induction a generalizing b with
  | nil =>
    cases b with
    | nil => rfl
    | cons y ys => simp [bytesLt] at hab
  | cons x xs ih =>
    cases b with
    | nil => simp [bytesLt] at hba
    | cons y ys =>
      by_cases hxy : x < y
      · simp [bytesLt, hxy] at hab
      · by_cases hyx : y < x
        · simp [bytesLt, hyx] at hba
        · have hx : x = y := Nat.le_antisymm (Nat.not_lt.mp hyx) (Nat.not_lt.mp hxy)
          subst hx
          simp [bytesLt, hxy] at hab hba
          rw [ih ys hab hba]

/-- C8: for every key and every pair of child hashes a and b,
hash_node(key, a, b) = hash_node(key, b, a): the node commitment is
commutative over which side each child hash occupies, including when one
or both are the empty placeholder. -/
theorem c8_hash_node_commutative (H : Bytes → Bytes) (key a b : Bytes) :
    calculate_merkle_hash H key a b = calculate_merkle_hash H key b a := by
  unfold calculate_merkle_hash
  by_cases hab : bytesLt a b = true
  · rw [if_pos hab, if_neg (by simp [bytesLt_asymm a b hab])]
  · by_cases hba : bytesLt b a = true
    · rw [if_neg (by simp [hab]), if_pos hba]
    · have hEq : a = b :=
        bytesLt_total a b (Bool.not_eq_true _ ▸ hab) (Bool.not_eq_true _ ▸ hba)
      subst hEq
      rfl

/-- Reading the hash of a missing child gives the empty placeholder. -/
theorem hashOf_leaf : hashOf Tree.leaf = [] := rfl

/-- Reading the hash of a present child gives its stored hash. -/
theorem hashOf_node (k : Bytes) (p : Int) (v h : Bytes) (l r : Tree) :
    hashOf (Tree.node k p v h l r) = h := rfl

theorem heapify_unfold_nl (H : Bytes → Bytes) (k : Bytes) (p : Int) (v h lk : Bytes)
    (lp : Int) (lv lh : Bytes) (ll lr : Tree) (hgt : lp > IntMin) :
    heapify H (Tree.node k p v h (Tree.node lk lp lv lh ll lr) Tree.leaf) =
      Tree.node lk lp lv
        (calculate_merkle_hash H lk (hashOf ll) (calculate_merkle_hash H k (hashOf lr) []))
        ll (heapify H (Tree.node k p v (calculate_merkle_hash H k (hashOf lr) []) lr Tree.leaf)) := by
  rw [heapify.eq_def]
  simp [hgt, hashOf]

theorem heapify_unfold_ln (H : Bytes → Bytes) (k : Bytes) (p : Int) (v h rk : Bytes)
    (rp : Int) (rv rh : Bytes) (rl rr : Tree) (hle : ¬ IntMin > rp) :
    heapify H (Tree.node k p v h Tree.leaf (Tree.node rk rp rv rh rl rr)) =
      Tree.node rk rp rv
        (calculate_merkle_hash H rk (calculate_merkle_hash H k [] (hashOf rl)) (hashOf rr))
        (heapify H (Tree.node k p v (calculate_merkle_hash H k [] (hashOf rl)) Tree.leaf rl)) rr := by
  rw [heapify.eq_def]
  simp [hle, hashOf]

theorem heapify_unfold_nn_right (H : Bytes → Bytes) (k : Bytes) (p : Int) (v h lk : Bytes)
    (lp : Int) (lv lh : Bytes) (ll lr : Tree) (rk : Bytes) (rp : Int) (rv rh : Bytes)
    (rl rr : Tree) (hgt : lp > rp) :
    heapify H (Tree.node k p v h (Tree.node lk lp lv lh ll lr) (Tree.node rk rp rv rh rl rr)) =
      Tree.node lk lp lv
        (calculate_merkle_hash H lk (hashOf ll) (calculate_merkle_hash H k (hashOf lr) rh))
        ll (heapify H (Tree.node k p v (calculate_merkle_hash H k (hashOf lr) rh) lr
          (Tree.node rk rp rv rh rl rr))) := by
  rw [heapify.eq_def]
  simp [hgt, hashOf]

theorem heapify_unfold_nn_left (H : Bytes → Bytes) (k : Bytes) (p : Int) (v h lk : Bytes)
    (lp : Int) (lv lh : Bytes) (ll lr : Tree) (rk : Bytes) (rp : Int) (rv rh : Bytes)
    (rl rr : Tree) (hle : ¬ lp > rp) :
    heapify H (Tree.node k p v h (Tree.node lk lp lv lh ll lr) (Tree.node rk rp rv rh rl rr)) =
      Tree.node rk rp rv
        (calculate_merkle_hash H rk (calculate_merkle_hash H k lh (hashOf rl)) (hashOf rr))
        (heapify H (Tree.node k p v (calculate_merkle_hash H k lh (hashOf rl))
          (Tree.node lk lp lv lh ll lr) rl)) rr := by
  rw [heapify.eq_def]
  simp [hle, hashOf]

theorem heapifyEF_succeeds (H : Bytes → Bytes) :
    ∀ (fuel : Nat) (k : Bytes) (p : Int) (v h : Bytes) (l r : Tree),
      size (Tree.node k p v h l r) ≤ fuel →
      allPrioGtMinB l = true → allPrioGtMinB r = true →
      heapifyEF H fuel (Tree.node k p v h l r)
        = some (heapify H (Tree.node k p v h l r)) := by
  intro fuel
  induction fuel with
  | zero =>
    intro k p v h l r hsz _ _
    simp [size] at hsz
  | succ n ih =>
    intro k p v h l r hsz hl hr
    cases l with
    | leaf =>
      cases r with
      | leaf =>
        rw [heapify.eq_2]
        rfl
      | node rk rp rv rh rl rr =>
        simp only [allPrioGtMinB, Bool.and_eq_true, decide_eq_true_eq] at hr
        obtain ⟨⟨hrp, hrl⟩, hrr⟩ := hr
        have hnotgt : ¬ prioOf Tree.leaf > prioOf (Tree.node rk rp rv rh rl rr) := by
          simp only [prioOf]
          omega
        have hrec := ih k p v (calculate_merkle_hash H k [] (hashOf rl)) Tree.leaf rl
          (by simp [size] at hsz ⊢; omega) rfl hrl
        rw [heapifyEF, if_neg hnotgt]
        simp only [rotate_leftT, leftOf, Option.some_bind, hashOf_leaf, hashOf_node]
        rw [hrec]
        rw [heapify_unfold_ln H k p v h rk rp rv rh rl rr (by omega)]
        rfl
        simp
    | node lk lp lv lh ll lr =>
      simp only [allPrioGtMinB, Bool.and_eq_true, decide_eq_true_eq] at hl
      obtain ⟨⟨hlp, hll⟩, hlr⟩ := hl
      cases r with
      | leaf =>
        have hgt : prioOf (Tree.node lk lp lv lh ll lr) > prioOf Tree.leaf := by
          simp only [prioOf]
          omega
        have hrec := ih k p v (calculate_merkle_hash H k (hashOf lr) []) lr Tree.leaf
          (by simp [size] at hsz ⊢; omega) hlr rfl
        rw [heapifyEF, if_pos hgt]
        simp only [rotate_rightT, rightOf, Option.some_bind, hashOf_leaf, hashOf_node]
        rw [hrec]
        rw [heapify_unfold_nl H k p v h lk lp lv lh ll lr (by omega)]
        rfl
        simp
      | node rk rp rv rh rl rr =>
        simp only [allPrioGtMinB, Bool.and_eq_true, decide_eq_true_eq] at hr
        obtain ⟨⟨hrp, hrl⟩, hrr⟩ := hr
        by_cases hcmp : lp > rp
        · have hgt : prioOf (Tree.node lk lp lv lh ll lr)
              > prioOf (Tree.node rk rp rv rh rl rr) := by
            simpa [prioOf] using hcmp
          have hrec := ih k p v
            (calculate_merkle_hash H k (hashOf lr) rh) lr (Tree.node rk rp rv rh rl rr)
            (by simp [size] at hsz ⊢; omega) hlr
            (by simp [allPrioGtMinB, hrp, hrl, hrr])
          rw [heapifyEF, if_pos hgt]
          simp only [rotate_rightT, rightOf, Option.some_bind, hashOf_leaf, hashOf_node]
          rw [hrec]
          rw [heapify_unfold_nn_right H k p v h lk lp lv lh ll lr rk rp rv rh rl rr hcmp]
          rfl
          simp
        · have hngt : ¬ prioOf (Tree.node lk lp lv lh ll lr)
              > prioOf (Tree.node rk rp rv rh rl rr) := by
            simpa [prioOf] using hcmp
          have hrec := ih k p v
            (calculate_merkle_hash H k lh (hashOf rl)) (Tree.node lk lp lv lh ll lr) rl
            (by simp [size] at hsz ⊢; omega)
            (by simp [allPrioGtMinB, hlp, hll, hlr]) hrl
          rw [heapifyEF, if_neg hngt]
          simp only [rotate_leftT, leftOf, Option.some_bind, hashOf_leaf, hashOf_node]
          rw [hrec]
          rw [heapify_unfold_nn_left H k p v h lk lp lv lh ll lr rk rp rv rh rl rr hcmp]
          rfl
          simp

/-- C1: the round-trip property fails on the code: after inserting keys
[1] and [2] (priorities 1 and 2), key [1] is present, yet verifying its
freshly generated proof against the current root hash returns false,
because `verify_proof` folds the recorded path root-first and hashes the
accumulator with each ancestor's own stored hash instead of
reconstructing the ancestor's commitment. -/
theorem c1_roundtrip_fails_on_two_keys :
    contains_key (buildList consHash prioHead [([1], [7]), ([2], [8])]) [1] = true ∧
    verify_proof consHash
      (generate_proof (buildList consHash prioHead [([1], [7]), ([2], [8])]) [1]) [1]
      (root_hash (buildList consHash prioHead [([1], [7]), ([2], [8])]))
      = some false := by
  decide

/-- C2: deletion breaks the hash invariant: the two-key tree below
satisfies the BST, heap and hash invariants, and after `remove` of its
root the removed key is indeed absent, but the hash invariant no longer
holds — `heapify` never recomputes the new local root's hash after its
recursive call, so the surviving node keeps a hash that still commits to
the removed node. -/
theorem c2_remove_breaks_hash_invariant :
    bstInvB (buildList consHash prioHead [([1], [7]), ([2], [8])]) = true ∧
    heapInvB (buildList consHash prioHead [([1], [7]), ([2], [8])]) = true ∧
    hashInvB consHash (buildList consHash prioHead [([1], [7]), ([2], [8])]) = true ∧
    contains_key (remove consHash (buildList consHash prioHead [([1], [7]), ([2], [8])]) [2])
      [2] = false ∧
    hashInvB consHash (remove consHash (buildList consHash prioHead [([1], [7]), ([2], [8])]) [2])
      = false := by
  have hbuild : buildList consHash prioHead [([1], [7]), ([2], [8])]
      = Tree.node [2] 2 [8] [1, 2, 1, 1]
          (Tree.node [1] 1 [7] [1, 1] Tree.leaf Tree.leaf) Tree.leaf := by
    decide
  have hheap : heapify consHash (Tree.node [2] IntMin [8] [1, 2, 1, 1]
        (Tree.node [1] 1 [7] [1, 1] Tree.leaf Tree.leaf) Tree.leaf)
      = Tree.node [1] 1 [7] [1, 1, 1, 2] Tree.leaf Tree.leaf := by
    have hag := heapifyEF_succeeds consHash 2 [2] IntMin [8] [1, 2, 1, 1]
      (Tree.node [1] 1 [7] [1, 1] Tree.leaf Tree.leaf) Tree.leaf
      (by decide) (by decide) (by decide)
    have hEF : heapifyEF consHash 2 (Tree.node [2] IntMin [8] [1, 2, 1, 1]
        (Tree.node [1] 1 [7] [1, 1] Tree.leaf Tree.leaf) Tree.leaf)
        = some (Tree.node [1] 1 [7] [1, 1, 1, 2] Tree.leaf Tree.leaf) := by decide
    exact Option.some.inj (hag.symm.trans hEF)
  have hrem : remove consHash (buildList consHash prioHead [([1], [7]), ([2], [8])]) [2]
      = Tree.node [1] 1 [7] [1, 1, 1, 2] Tree.leaf Tree.leaf := by
    rw [hbuild]
    show heapify consHash (Tree.node [2] IntMin [8] [1, 2, 1, 1]
        (Tree.node [1] 1 [7] [1, 1] Tree.leaf Tree.leaf) Tree.leaf) = _
    exact hheap
  refine ⟨by decide, by decide, by decide, ?_, ?_⟩
  · rw [hrem]
    decide
  · rw [hrem]
    decide

/-- C3: split is not a partition: on the BST subtree with root key [5]
and right child [10], splitting by the absent pivot [7] leaves key [10]
(which is above the pivot) inside the returned "less" part, and also
duplicates it into the "greater" part, because `split` overwrites the
whole accumulator slot with a clone of each visited node's entire
subtree. -/
theorem c3_split_leaks_and_duplicates :
    bstInvB (Tree.node [5] 2 [] [1, 5, 1, 10] Tree.leaf
        (Tree.node [10] 1 [] [1, 10] Tree.leaf Tree.leaf)) = true ∧
    hashInvB consHash (Tree.node [5] 2 [] [1, 5, 1, 10] Tree.leaf
        (Tree.node [10] 1 [] [1, 10] Tree.leaf Tree.leaf)) = true ∧
    keyInB (Tree.node [5] 2 [] [1, 5, 1, 10] Tree.leaf
        (Tree.node [10] 1 [] [1, 10] Tree.leaf Tree.leaf)) [7] = false ∧
    keyInB (splitAcc (Tree.node [5] 2 [] [1, 5, 1, 10] Tree.leaf
        (Tree.node [10] 1 [] [1, 10] Tree.leaf Tree.leaf)) [7]
        (Tree.leaf, Tree.leaf)).1 [10] = true ∧
    bytesLt [7] [10] = true ∧
    keyInB (splitAcc (Tree.node [5] 2 [] [1, 5, 1, 10] Tree.leaf
        (Tree.node [10] 1 [] [1, 10] Tree.leaf Tree.leaf)) [7]
        (Tree.leaf, Tree.leaf)).2 [10] = true := by
  decide

/-- C4: insertion order changes both the shape and the root hash: with
priorities 2, 1, 5 for keys [1], [3], [2], inserting in the order
[1], [3], [2] triggers the broken split and yields a four-node tree,
while the order [2], [1], [3] yields the three-node treap; the two root
hashes differ. -/
theorem c4_insertion_order_dependent :
    size (buildList consHash prioMid [([1], [0]), ([3], [0]), ([2], [0])]) = 4 ∧
    size (buildList consHash prioMid [([2], [0]), ([1], [0]), ([3], [0])]) = 3 ∧
    root_hash (buildList consHash prioMid [([1], [0]), ([3], [0]), ([2], [0])])
      ≠ root_hash (buildList consHash prioMid [([2], [0]), ([1], [0]), ([3], [0])]) := by
  decide

/-- C5: a malformed proof with existence = false and an absent witness
key makes `verify_proof` panic (the `unwrap` of `nonexistence_key`,
modelled as `none`) instead of returning false. -/
theorem c5_verify_proof_panics_on_malformed :
    verify_proof consHash (Proof.mk [] ([], []) false none) [0] [] = none := rfl

/-- C6: on the empty tree, `generate_proof` returns the documented
non-existence proof (empty path, empty-placeholder suffix, absent
witness key) for every key, but `verify_proof` of that proof against the
empty-tree root hash panics on the `unwrap` of the absent witness key
(modelled as `none`) instead of returning true. -/
theorem c6_empty_tree_proof_and_verify (H : Bytes → Bytes) (key : Bytes) :
    generate_proof Tree.leaf key = Proof.mk [] ([], []) false none ∧
    verify_proof H (generate_proof Tree.leaf key) key (root_hash Tree.leaf) = none :=
  ⟨rfl, rfl⟩

/-- Removal of a key that occurs nowhere in a hash-consistent tree
rebuilds the tree unchanged: the recomputed hash on every frame of the
walk back up equals the stored hash. -/
theorem remove_recursive_absent (H : Bytes → Bytes) (key : Bytes) :
    ∀ t : Tree, hashInvB H t = true → keyInB t key = false →
      remove_recursive H t key = t := by
  intro t
  induction t with
  | leaf =>
    intro _ _
    rfl
  | node k p v h l r ihl ihr =>
    intro hinv habs
    simp only [hashInvB, Bool.and_eq_true, decide_eq_true_eq] at hinv
    obtain ⟨⟨hh, hl⟩, hr⟩ := hinv
    simp only [keyInB, Bool.or_eq_false_iff, decide_eq_false_iff_not] at habs
    obtain ⟨⟨hk, hkl⟩, hkr⟩ := habs
    show remove_recursive H (Tree.node k p v h l r) key = Tree.node k p v h l r
    rw [remove_recursive]
    by_cases h1 : bytesLt key k = true
    · rw [if_pos h1, ihl hl hkl]
      show Tree.node k p v (calculate_merkle_hash H k (hashOf l) (hashOf r)) l r
          = Tree.node k p v h l r
      rw [← hh]
    · by_cases h2 : bytesLt k key = true
      · rw [if_neg (by simp [h1]), if_pos h2, ihr hr hkr]
        show Tree.node k p v (calculate_merkle_hash H k (hashOf l) (hashOf r)) l r
            = Tree.node k p v h l r
        rw [← hh]
      · exact absurd (bytesLt_total key k (by simpa using h1) (by simpa using h2)).symm hk

/-- C7: for every tree satisfying the hash invariant and every key that
occurs nowhere in it, `remove` is a no-op: the resulting tree is
identical (same shape, keys, values, priorities and hashes) to the
original. -/
theorem c7_remove_absent_key_noop (H : Bytes → Bytes) (t : Tree) (key : Bytes)
    (hinv : hashInvB H t = true) (habs : keyInB t key = false) :
    remove H t key = t :=
  remove_recursive_absent H key t hinv habs

/-- Witness for C7 at a concrete hash-consistent one-node tree and the
absent key [2]. -/
theorem c7_remove_absent_key_noop_witness :
    hashInvB consHash (Tree.node [1] 0 [] [1, 1] Tree.leaf Tree.leaf) = true ∧
    keyInB (Tree.node [1] 0 [] [1, 1] Tree.leaf Tree.leaf) [2] = false ∧
    remove consHash (Tree.node [1] 0 [] [1, 1] Tree.leaf Tree.leaf) [2]
      = Tree.node [1] 0 [] [1, 1] Tree.leaf Tree.leaf :=
  ⟨by decide, by decide,
    c7_remove_absent_key_noop consHash
      (Tree.node [1] 0 [] [1, 1] Tree.leaf Tree.leaf) [2] (by decide) (by decide)⟩

/-- C9: for a node whose priority has been forced to the minimum
representable value and whose strict descendants carry genuine (above
minimum) priorities, heapify terminates within one rotation per node —
the fueled, panic-precise run with fuel equal to the subtree's node count
completes — and no rotation `expect` or reattachment `unwrap` panics: the
demoted node is always found as the right child after a right rotation
and as the left child after a left rotation. -/
theorem c9_heapify_terminates_without_panic (H : Bytes → Bytes) (k : Bytes)
    (v h : Bytes) (l r : Tree)
    (hl : allPrioGtMinB l = true) (hr : allPrioGtMinB r = true) :
    heapifyEF H (size (Tree.node k IntMin v h l r)) (Tree.node k IntMin v h l r)
      = some (heapify H (Tree.node k IntMin v h l r)) :=
  heapifyEF_succeeds H (size (Tree.node k IntMin v h l r)) k IntMin v h l r
    (Nat.le_refl _) hl hr

/-- Witness for C9 at a concrete minimised node with one genuine child. -/
theorem c9_heapify_terminates_without_panic_witness :
    allPrioGtMinB (Tree.node [1] 1 [7] [1, 1] Tree.leaf Tree.leaf) = true ∧
    allPrioGtMinB Tree.leaf = true ∧
    heapifyEF consHash
        (size (Tree.node [2] IntMin [8] [1, 2, 1, 1]
          (Tree.node [1] 1 [7] [1, 1] Tree.leaf Tree.leaf) Tree.leaf))
        (Tree.node [2] IntMin [8] [1, 2, 1, 1]
          (Tree.node [1] 1 [7] [1, 1] Tree.leaf Tree.leaf) Tree.leaf)
      = some (heapify consHash (Tree.node [2] IntMin [8] [1, 2, 1, 1]
          (Tree.node [1] 1 [7] [1, 1] Tree.leaf Tree.leaf) Tree.leaf)) :=
  ⟨by decide, by decide,
    c9_heapify_terminates_without_panic consHash [2] [8] [1, 2, 1, 1]
      (Tree.node [1] 1 [7] [1, 1] Tree.leaf Tree.leaf) Tree.leaf
      (by decide) (by decide)⟩

/-- Erasing values commutes with reading the stored hash. -/
theorem hashOf_strip (t : Tree) : hashOf (strip t) = hashOf t := by
  cases t <;> rfl

/-- Value-erased `split`: the two output slots of `split` depend only on
the value-erased input subtree and accumulator. -/
theorem splitAcc_strip (key : Bytes) :
    ∀ (t t' : Tree) (a a' : Tree × Tree),
      strip t = strip t' → strip a.1 = strip a'.1 → strip a.2 = strip a'.2 →
      strip (splitAcc t key a).1 = strip (splitAcc t' key a').1 ∧
      strip (splitAcc t key a).2 = strip (splitAcc t' key a').2 := by
  intro t
  induction t with
  | leaf =>
    intro t' a a' ht h1 h2
    cases t' with
    | leaf => exact ⟨h1, h2⟩
    | node k2 p2 v2 h2x l2 r2 => simp [strip] at ht
  | node k p v h l r ihl ihr =>
    intro t' a a' ht h1 h2
    cases t' with
    | leaf => simp [strip] at ht
    | node k2 p2 v2 hh2 l2 r2 =>
      simp only [strip, Tree.node.injEq] at ht
      obtain ⟨hk, hp, -, hhash, hsl, hsr⟩ := ht
      subst hk
      subst hp
      subst hhash
      rw [splitAcc, splitAcc]
      by_cases hc : bytesLt k key = true
      · rw [if_pos hc, if_pos hc]
        cases r with
        | leaf =>
          cases r2 with
          | leaf =>
            constructor
            · simp [strip, hsl, hsr]
            · exact h2
          | node rk2 rp2 rv2 rh2 rl2 rr2 => simp [strip] at hsr
        | node rk rp rv rh rl rr =>
          cases r2 with
          | leaf => simp [strip] at hsr
          | node rk2 rp2 rv2 rh2 rl2 rr2 =>
            have hsr2 := hsr
            simp only [strip, Tree.node.injEq] at hsr2
            obtain ⟨ek, ep, -, eh, el, er⟩ := hsr2
            exact ihr _ _ _ hsr (by simp [strip, hsl, ek, ep, eh, el, er]) h2
      · rw [if_neg hc, if_neg hc]
        cases l with
        | leaf =>
          cases l2 with
          | leaf =>
            constructor
            · exact h1
            · simp [strip, hsl, hsr]
          | node lk2 lp2 lv2 lh3 ll2 lr2 => simp [strip] at hsl
        | node lk lp lv lh2 ll lr =>
          cases l2 with
          | leaf => simp [strip] at hsl
          | node lk2 lp2 lv2 lh3 ll2 lr2 =>
            have hsl2 := hsl
            simp only [strip, Tree.node.injEq] at hsl2
            obtain ⟨ek, ep, -, eh, el, er⟩ := hsl2
            exact ihl _ _ _ hsl h1 (by simp [strip, hsr, ek, ep, eh, el, er])

/-- Value-erased `insert_recursive`: the inserted value never influences
the keys, priorities, hashes or shape of the result. -/
theorem insert_recursive_strip (H : Bytes → Bytes) (k : Bytes) (p : Int) :
    ∀ (t t' : Tree) (v v' : Bytes), strip t = strip t' →
      strip (insert_recursive H t k v p) = strip (insert_recursive H t' k v' p) := by
  intro t
  induction t with
  | leaf =>
    intro t' v v' ht
    cases t' with
    | leaf => simp [insert_recursive, strip]
    | node k2 p2 v2 h2 l2 r2 => simp [strip] at ht
  | node tk tp tv th tl tr ihl ihr =>
    intro t' v v' ht
    cases t' with
    | leaf => simp [strip] at ht
    | node tk2 tp2 tv2 th2 tl2 tr2 =>
      simp only [strip, Tree.node.injEq] at ht
      obtain ⟨hk, hp, -, hhash, hsl, hsr⟩ := ht
      subst hk
      subst hp
      subst hhash
      rw [insert_recursive, insert_recursive]
      by_cases hpp : p > tp
      · rw [if_pos hpp, if_pos hpp]
        have hsp := splitAcc_strip k (Tree.node tk tp tv th tl tr)
          (Tree.node tk tp tv2 th tl2 tr2) (Tree.leaf, Tree.leaf) (Tree.leaf, Tree.leaf)
          (by simp [strip, hsl, hsr]) rfl rfl
        have e1 : hashOf (splitAcc (Tree.node tk tp tv th tl tr) k
              (Tree.leaf, Tree.leaf)).1
            = hashOf (splitAcc (Tree.node tk tp tv2 th tl2 tr2) k
              (Tree.leaf, Tree.leaf)).1 := by
          rw [← hashOf_strip, hsp.1, hashOf_strip]
        have e2 : hashOf (splitAcc (Tree.node tk tp tv th tl tr) k
              (Tree.leaf, Tree.leaf)).2
            = hashOf (splitAcc (Tree.node tk tp tv2 th tl2 tr2) k
              (Tree.leaf, Tree.leaf)).2 := by
          rw [← hashOf_strip, hsp.2, hashOf_strip]
        simp [strip, e1, e2, hsp.1, hsp.2]
      · rw [if_neg hpp, if_neg hpp]
        by_cases hlt : bytesLt k tk = true
        · rw [if_pos hlt, if_pos hlt]
          have hrec := ihl tl2 v v' hsl
          have e1 : hashOf (insert_recursive H tl k v p)
              = hashOf (insert_recursive H tl2 k v' p) := by
            rw [← hashOf_strip, hrec, hashOf_strip]
          have e2 : hashOf tr = hashOf tr2 := by
            rw [← hashOf_strip, hsr, hashOf_strip]
          simp [strip, hrec, e1, e2, hsr]
        · rw [if_neg hlt, if_neg hlt]
          by_cases hgt : bytesLt tk k = true
          · rw [if_pos hgt, if_pos hgt]
            have hrec := ihr tr2 v v' hsr
            have e1 : hashOf (insert_recursive H tr k v p)
                = hashOf (insert_recursive H tr2 k v' p) := by
              rw [← hashOf_strip, hrec, hashOf_strip]
            have e2 : hashOf tl = hashOf tl2 := by
              rw [← hashOf_strip, hsl, hashOf_strip]
            simp [strip, hrec, e1, e2, hsl]
          · rw [if_neg hgt, if_neg hgt]
            have e1 : hashOf tl = hashOf tl2 := by
              rw [← hashOf_strip, hsl, hashOf_strip]
            have e2 : hashOf tr = hashOf tr2 := by
              rw [← hashOf_strip, hsr, hashOf_strip]
            simp [strip, e1, e2, hsl, hsr]

/-- Value-erased `insert` folded over a list: two insertion sequences
with the same keys in the same order yield value-erasure-equal trees. -/
theorem buildList_strip (H : Bytes → Bytes) (prio : Bytes → Int) :
    ∀ (l1 l2 : List (Bytes × Bytes)), l1.map Prod.fst = l2.map Prod.fst →
      ∀ (t t' : Tree), strip t = strip t' →
        strip (l1.foldl (fun t kv => insert H prio t kv.1 kv.2) t)
          = strip (l2.foldl (fun t kv => insert H prio t kv.1 kv.2) t') := by
  intro l1
  induction l1 with
  | nil =>
    intro l2 hmap t t' ht
    cases l2 with
    | nil => simpa using ht
    | cons kv2 tl2 => simp at hmap
  | cons kv tl ih =>
    intro l2 hmap t t' ht
    cases l2 with
    | nil => simp at hmap
    | cons kv2 tl2 =>
      simp only [List.map_cons, List.cons.injEq] at hmap
      obtain ⟨hk, htl⟩ := hmap
      simp only [List.foldl_cons]
      refine ih tl2 htl _ _ ?_
      rw [insert, insert, ← hk]
      exact insert_recursive_strip H kv.1 (prio kv.1) t t' kv.2 kv2.2 ht

/-- Re-inserting an existing key (with any value) never changes the root
hash: the second insertion replays the same comparisons, overwrites only
the value and recomputes every hash on the path to its stored value. -/
theorem insert_twice_hash (H : Bytes → Bytes) :
    ∀ (t : Tree) (k v v' : Bytes) (p : Int),
      hashOf (insert_recursive H (insert_recursive H t k v p) k v' p)
        = hashOf (insert_recursive H t k v p) := by
  intro t
  induction t with
  | leaf =>
    intro k v v' p
    simp [insert_recursive, bytesLt_irrefl, lt_irrefl, hashOf]
  | node tk tp tv th tl tr ihl ihr =>
    intro k v v' p
    rw [insert_recursive]
    by_cases hpp : p > tp
    · rw [if_pos hpp]
      rw [insert_recursive]
      simp [lt_irrefl, bytesLt_irrefl, hashOf]
    · rw [if_neg hpp]
      by_cases hlt : bytesLt k tk = true
      · rw [if_pos hlt]
        rw [insert_recursive, if_neg hpp, if_pos hlt]
        simp only [hashOf_node]
        rw [ihl]
      · rw [if_neg hlt]
        by_cases hgt : bytesLt tk k = true
        · rw [if_pos hgt]
          rw [insert_recursive, if_neg hpp, if_neg hlt, if_pos hgt]
          simp only [hashOf_node]
          rw [ihr]
        · rw [if_neg hgt]
          rw [insert_recursive, if_neg hpp, if_neg hlt, if_neg hgt]
          simp only [hashOf_node]

/-- C10: the root hash is independent of the stored values: two insert
sequences with the same keys in the same order but arbitrary values give
the same root hash, and re-inserting an existing key with a new value
leaves the root hash completely unchanged — a node's commitment is
computed only from its key and child hashes, never from its value. -/
theorem c10_root_hash_value_independent (H : Bytes → Bytes) (prio : Bytes → Int)
    (l1 l2 : List (Bytes × Bytes)) (hk : l1.map Prod.fst = l2.map Prod.fst)
    (t : Tree) (k v1 v2 : Bytes) (p : Int) :
    root_hash (buildList H prio l1) = root_hash (buildList H prio l2) ∧
    root_hash (insert_recursive H (insert_recursive H t k v1 p) k v2 p)
      = root_hash (insert_recursive H t k v1 p) := by
  constructor
  · have hs := buildList_strip H prio l1 l2 hk Tree.leaf Tree.leaf rfl
    show hashOf (buildList H prio l1) = hashOf (buildList H prio l2)
    rw [← hashOf_strip, buildList, hs, ← buildList, hashOf_strip]
  · exact insert_twice_hash H t k v1 v2 p

/-- Witness for C10 at two one-element sequences sharing the key [1] with
values [5] and [9], and a repeated insert of key [2] into the empty
tree. -/
theorem c10_root_hash_value_independent_witness :
    ([([1], [5])] : List (Bytes × Bytes)).map Prod.fst
      = ([([1], [9])] : List (Bytes × Bytes)).map Prod.fst ∧
    (root_hash (buildList consHash prioHead [([1], [5])])
        = root_hash (buildList consHash prioHead [([1], [9])]) ∧
      root_hash (insert_recursive consHash
          (insert_recursive consHash Tree.leaf [2] [3] 7) [2] [4] 7)
        = root_hash (insert_recursive consHash Tree.leaf [2] [3] 7)) :=
  ⟨rfl, c10_root_hash_value_independent consHash prioHead
    [([1], [5])] [([1], [9])] rfl Tree.leaf [2] [3] [4] 7⟩

end CMT

